import Mathlib

/-!
Verification of the random-string generator in `src/main.cpp`
(`RandomStringGeneratorBase<TChar>`): a shallow embedding of its data model
(charset plus pluggable seed/random strategies), its two generation entry
points, its construction overloads, and its one-time auto-seeding guard,
together with proofs of the specified properties.
-/

namespace RSG

variable {TChar : Type} {σ : Type}

/-- Embedding of the class `RandomStringGeneratorBase<TChar>` (src/main.cpp,
lines 27-157).  `charset` models the `_charset` field (a
`std::basic_string<TChar>`, modelled as a list of symbols) and `rand` models
the `_rand` field (a `std::function<size_t(size_t)>`).  A C++ `std::function`
may carry mutable captured state, so the random strategy is modelled in
state-passing style over a strategy-state type `σ`: `rand n s` returns the
sampled index together with the successor strategy state.  The `_seed`
strategy does not participate in generation; the seeding side effect of the
constructor is modelled separately by `constructorSeedEffect` below. -/
structure RandomStringGeneratorBase (TChar : Type) (σ : Type) where
  charset : List TChar
  rand : Nat → σ → Nat × σ

/-- The loop `for (int i = 0; i < outSize; i++) { out[i] = _charset[_rand(_charset.size())]; }`
of `get(TChar*, size_t)` (src/main.cpp, lines 137-143), in the idealized
reading where the counter counts exactly `outSize` iterations (the 32-bit
`int` counter is modelled separately by `getIntLoop` below).  `r` is the
number of iterations remaining and `i` the current loop index, so the loop
starts at `r = outSize`, `i = 0`.  The caller's buffer is a `List TChar`;
`out.set i c` models the store `out[i] = c`, and `charset.getD idx default`
models the unchecked read `_charset[idx]`. -/
def getLoop [Inhabited TChar] (g : RandomStringGeneratorBase TChar σ) :
    Nat → Nat → List TChar → σ → List TChar × σ
  | 0, _, out, s => (out, s)
  | r + 1, i, out, s =>
    let p := g.rand g.charset.length s
    getLoop g r (i + 1) (out.set i (g.charset.getD p.1 default)) p.2

/-- Embedding of `void get(TChar* out, size_t outSize)` (src/main.cpp, lines
137-143): fill positions `0 .. outSize-1` of the caller-owned buffer with
symbols sampled from the charset by the random strategy. -/
def RandomStringGeneratorBase.get [Inhabited TChar]
    (g : RandomStringGeneratorBase TChar σ) (out : List TChar) (outSize : Nat) (s : σ) :
    List TChar × σ :=
  getLoop g outSize 0 out s

/-- Embedding of `template<typename T> auto get(size_t outSize) -> T`
(src/main.cpp, lines 123-129): `T result(outSize, {}); get(result.data(),
result.size()); return result;`.  The value-initialized container of size
`outSize` is modelled as `List.replicate outSize default`. -/
def RandomStringGeneratorBase.getContainer [Inhabited TChar]
    (g : RandomStringGeneratorBase TChar σ) (outSize : Nat) (s : σ) : List TChar × σ :=
  let result := List.replicate outSize (default : TChar)
  g.get result result.length s

/-- The primary constructor (src/main.cpp, lines 41-59): stores the supplied
charset string and the random strategy.  Its `std::call_once` auto-seeding
side effect is modelled separately by `constructorSeedEffect`. -/
def mkFromString (charset : List TChar) (rand : Nat → σ → Nat × σ) :
    RandomStringGeneratorBase TChar σ :=
  ⟨charset, rand⟩

/-- The fixed-size-array constructor (src/main.cpp, lines 70-79): it builds
`std::basic_string<TChar>(charsetArray, charsetArray + size)`, i.e. it copies
the full declared extent of the array (the model's list holds exactly the
`size` array elements, including a trailing sentinel when the array holds
one), then delegates to the primary constructor. -/
def mkFromArray (charsetArray : List TChar) (rand : Nat → σ → Nat × σ) :
    RandomStringGeneratorBase TChar σ :=
  mkFromString charsetArray rand

/-- The null-terminated-pointer constructor (src/main.cpp, lines 88-96): it
builds `std::basic_string<TChar>(charsetString)`, which copies the symbols
strictly before the first occurrence of the null sentinel.  `mem` is the
symbol sequence in memory at the pointer and `nul` the sentinel value. -/
def mkFromPtr [DecidableEq TChar] (mem : List TChar) (nul : TChar)
    (rand : Nat → σ → Nat × σ) : RandomStringGeneratorBase TChar σ :=
  mkFromString (mem.takeWhile (fun c => decide (c ≠ nul))) rand

/-- The random-access-container constructor (src/main.cpp, lines 105-115): it
builds `std::basic_string<TChar>(charset.data(), charset.data() + charset.size())`,
i.e. it copies the container's full current contents. -/
def mkFromContainer (charset : List TChar) (rand : Nat → σ → Nat × σ) :
    RandomStringGeneratorBase TChar σ :=
  mkFromString charset rand

/-- State of the process-wide one-time auto-seeding machinery of the
constructor (src/main.cpp, lines 47-58): `flagDone` models the
`static std::once_flag` (line 51) and `seedCalls` counts the invocations of
the seed strategy (the spec's instrumented counting seed strategy). -/
structure OnceState where
  flagDone : Bool
  seedCalls : Nat

/-- The seeding side effect of one constructor run (src/main.cpp, lines
47-58).  When the configuration macro
`SPEEDUP_GENERATOR_BY_DEDICATED_CALL_OF_SEED_RANDOM` is set
(`speedupFlag = true`, auto-seeding disabled) the whole block is compiled
out and nothing happens; otherwise `std::call_once(flag, ... Seed() ...)`
invokes the seed strategy exactly when the once-flag has not fired yet, and
marks it fired. -/
def constructorSeedEffect (speedupFlag : Bool) (st : OnceState) : OnceState :=
  if speedupFlag then st
  else if st.flagDone then st
  else ⟨true, st.seedCalls + 1⟩

/-- `n` consecutive Generator constructions in a single process, starting
from once-flag state `st`, each performing the constructor's seeding side
effect. -/
def constructN (speedupFlag : Bool) : Nat → OnceState → OnceState
  | 0, st => st
  | n + 1, st => constructN speedupFlag n (constructorSeedEffect speedupFlag st)

/-- Conversion of a C++ `int` value (represented exactly as an `Int`) to the
64-bit `size_t` operand of the comparison `i < outSize` in the loop header of
`get` (src/main.cpp, line 140): reduction modulo `2 ^ 64`. -/
def intToSizeT (i : Int) : Nat := (i % (2 ^ 64 : Int)).toNat

/-- The increment `i++` of the 32-bit `int` loop counter in the wraparound
(two's-complement) model: `INT_MAX` wraps to `INT_MIN`. -/
def intWrapSucc (i : Int) : Int := if i + 1 < 2 ^ 31 then i + 1 else -(2 ^ 31)

/-- The loop of `get(TChar*, size_t)` (src/main.cpp, lines 140-142) with the
`int` loop counter modelled as a wrapping 32-bit signed integer, recording
how many iterations run and which `int` index each iteration writes through
(`out[i]`).  The loop is driven by a fuel argument; `getIntRun` supplies
`2 ^ 32` fuel, which the characterization lemmas show is never exhausted
before the loop condition fails. -/
def getIntLoop (outSize : Nat) : Nat → Int → Nat → List Int → Nat × List Int
  | 0, _, count, ws => (count, ws)
  | fuel + 1, i, count, ws =>
    if intToSizeT i < outSize then
      getIntLoop outSize fuel (intWrapSucc i) (count + 1) (ws ++ [i])
    else (count, ws)

/-- A full run of the `get` loop in the 32-bit-counter wraparound model for a
requested output size `outSize`: iteration count and written indices. -/
def getIntRun (outSize : Nat) : Nat × List Int := getIntLoop outSize (2 ^ 32) 0 0 []

/-- Number of loop iterations `get(out, outSize)` performs in the
32-bit-counter wraparound model. -/
def getIntIterations (outSize : Nat) : Nat := (getIntRun outSize).1

/-- The `int` value of the loop counter after `j` increments from `0` in the
wraparound model (auxiliary to the characterization lemmas). -/
def intOfNatWrap (j : Nat) : Int := if j < 2 ^ 31 then (j : Int) else -(2 ^ 31)

/-- Wraps a random strategy so that every bound passed to it is also logged,
modelling an instrumented strategy that observes the arguments `_rand` is
invoked with during generation. -/
def instrumentRand (f : Nat → σ → Nat × σ) : Nat → σ × List Nat → Nat × (σ × List Nat) :=
  fun n p => ((f n p.1).1, ((f n p.1).2, p.2 ++ [n]))

/-- The charset "ab" as a list of symbols. -/
def abCharset : List Char := ['a', 'b']

/-- The cycling random strategy returning the fixed index sequence
0, 1, 0, 1, ...; its strategy state is the call counter. -/
def cyclingStrategy : Nat → Nat → Nat × Nat := fun _ k => (k % 2, k + 1)

/-- Generator with charset "ab" and the cycling 0,1,0,1,... strategy. -/
def abCyclingGen : RandomStringGeneratorBase Char Nat := mkFromString abCharset cyclingStrategy

/-- Generator with charset "ab" and the stateless always-zero strategy. -/
def abZeroGen : RandomStringGeneratorBase Char Unit :=
  mkFromString abCharset (fun _ s => (0, s))

/-- The primary constructor stores exactly the supplied charset. -/
theorem mkFromString_charset (charset : List TChar) (rand : Nat → σ → Nat × σ) :
    (mkFromString charset rand).charset = charset := rfl

/-- The primary constructor stores exactly the supplied random strategy. -/
theorem mkFromString_rand (charset : List TChar) (rand : Nat → σ → Nat × σ) :
    (mkFromString charset rand).rand = rand := rfl

/-- An in-range `getD` read returns an element of the list. -/
theorem getD_mem_of_lt (l : List TChar) (idx : Nat) (d : TChar) (h : idx < l.length) :
    l.getD idx d ∈ l := by
  rw [List.getD_eq_getElem?_getD, List.getElem?_eq_getElem h]
  exact List.getElem_mem h

/-- The generation loop never changes the length of the caller's buffer. -/
theorem getLoop_length [Inhabited TChar] (g : RandomStringGeneratorBase TChar σ) :
    ∀ (r i : Nat) (out : List TChar) (s : σ),
      ((getLoop g r i out s).1).length = out.length := by
  intro r
  induction r with
  | zero => intro i out s; rfl
  | succ r ih =>
    intro i out s
    simp only [getLoop]
    rw [ih]
    simp

/-- Positions strictly below the current loop index are not touched by the
remainder of the generation loop. -/
theorem getLoop_getElem?_lt [Inhabited TChar] (g : RandomStringGeneratorBase TChar σ) :
    ∀ (r i : Nat) (out : List TChar) (s : σ) (j : Nat), j < i →
      ((getLoop g r i out s).1)[j]? = out[j]? := by
  intro r
  induction r with
  | zero => intro i out s j _; rfl
  | succ r ih =>
    intro i out s j hj
    simp only [getLoop]
    rw [ih (i + 1) _ _ j (Nat.lt_succ_of_lt hj)]
    exact List.getElem?_set_ne (by omega)

/-- Every in-buffer position covered by the remaining iterations ends up
holding a symbol read from the charset at an index the random strategy
returned for the bound `charset.length` (at some intermediate strategy
state). -/
theorem getLoop_getElem?_written [Inhabited TChar] (g : RandomStringGeneratorBase TChar σ) :
    ∀ (r i : Nat) (out : List TChar) (s : σ) (j : Nat),
      i ≤ j → j < i + r → j < out.length →
      ∃ s' : σ, ((getLoop g r i out s).1)[j]? =
        some (g.charset.getD ((g.rand g.charset.length s').1) default) := by
  intro r
  induction r with
  | zero => intro i out s j h1 h2 _; exact absurd h2 (by omega)
  | succ r ih =>
    intro i out s j h1 h2 hlen
    simp only [getLoop]
    rcases Nat.eq_or_lt_of_le h1 with heq | hlt
    · subst heq
      refine ⟨s, ?_⟩
      rw [getLoop_getElem?_lt g r (i + 1) _ _ i (Nat.lt_succ_self i)]
      exact List.getElem?_set_eq_of_lt _ hlen
    · exact ih (i + 1) _ _ j hlt (by omega) (by simpa using hlen)

/-- A random strategy that never changes its state leaves the strategy state
untouched across the whole generation loop. -/
theorem getLoop_snd_stateless [Inhabited TChar] (g : RandomStringGeneratorBase TChar σ)
    (hdet : ∀ n s, (g.rand n s).2 = s) :
    ∀ (r i : Nat) (out : List TChar) (s : σ), (getLoop g r i out s).2 = s := by
  intro r
  induction r with
  | zero => intro i out s; rfl
  | succ r ih =>
    intro i out s
    simp only [getLoop]
    rw [ih, hdet]

/-- The generation loop's result does not depend on the initial contents of
the buffer positions it overwrites: two buffers of equal length agreeing
outside the overwritten range yield the same loop result. -/
theorem getLoop_congr [Inhabited TChar] (g : RandomStringGeneratorBase TChar σ) :
    ∀ (r i : Nat) (out1 out2 : List TChar) (s : σ),
      out1.length = out2.length →
      (∀ j : Nat, j < i ∨ i + r ≤ j → out1[j]? = out2[j]?) →
      getLoop g r i out1 s = getLoop g r i out2 s := by
  intro r
  induction r with
  | zero =>
    intro i out1 out2 s _ hj
    have h12 : out1 = out2 := List.ext_getElem? fun j => hj j (by omega)
    rw [h12]
  | succ r ih =>
    intro i out1 out2 s hlen hj
    simp only [getLoop]
    apply ih
    · simp [hlen]
    · intro j hj'
      rcases Nat.lt_or_ge j i with h | h
      · rw [List.getElem?_set_ne (by omega), List.getElem?_set_ne (by omega)]
        exact hj j (Or.inl h)
      · rcases Nat.eq_or_lt_of_le h with heq | hgt
        · subst heq
          rw [List.getElem?_set, List.getElem?_set]
          simp [hlen]
        · rw [List.getElem?_set_ne (by omega), List.getElem?_set_ne (by omega)]
          exact hj j (Or.inr (by omega))

/-- Running the generation loop with an instrumented random strategy appends
one log entry per iteration, each recording the bound `charset.length`. -/
theorem getLoop_instrument_log [Inhabited TChar] (charset : List TChar)
    (f : Nat → σ → Nat × σ) :
    ∀ (r i : Nat) (out : List TChar) (s : σ) (log : List Nat),
      ((getLoop (mkFromString charset (instrumentRand f)) r i out (s, log)).2).2
        = log ++ List.replicate r charset.length := by
  intro r
  induction r with
  | zero => intro i out s log; simp [getLoop]
  | succ r ih =>
    intro i out s log
    simp only [getLoop, mkFromString_charset, mkFromString_rand, instrumentRand]
    rw [ih]
    simp [List.replicate_succ, List.append_assoc]

/-- C1: for every Generator with a non-empty charset whose random strategy,
when given the charset length, returns an in-range index, and every requested
length `L`, the buffer form `get(out, L)` writes exactly `L` symbols (the
length-`L` buffer keeps length `L` and every position below `L` is filled)
and the container form `get<T>(L)` returns exactly `L` symbols, every
produced symbol being an element of the charset. -/
theorem generate_length_and_alphabet [Inhabited TChar]
    (g : RandomStringGeneratorBase TChar σ) (_hne : g.charset ≠ [])
    (hrand : ∀ s : σ, (g.rand g.charset.length s).1 < g.charset.length)
    (L : Nat) (out : List TChar) (hout : out.length = L) (s : σ) (d : TChar) :
    ((g.get out L s).1.length = L
      ∧ ∀ j, j < L → (g.get out L s).1.getD j d ∈ g.charset)
    ∧ ((g.getContainer L s).1.length = L
      ∧ ∀ j, j < L → (g.getContainer L s).1.getD j d ∈ g.charset) := by
  have key : ∀ (buf : List TChar) (s0 : σ), buf.length = L →
      (g.get buf L s0).1.length = L
        ∧ ∀ j, j < L → (g.get buf L s0).1.getD j d ∈ g.charset := by
    intro buf s0 hbuf
    constructor
    · simp only [RandomStringGeneratorBase.get]
      rw [getLoop_length]
      exact hbuf
    · intro j hj
      obtain ⟨s', hs'⟩ :=
        getLoop_getElem?_written g L 0 buf s0 j (Nat.zero_le j) (by omega) (by omega)
      simp only [RandomStringGeneratorBase.get]
      rw [List.getD_eq_getElem?_getD]
      rw [hs']
      simp only [Option.getD_some]
      exact getD_mem_of_lt _ _ _ (hrand s')
  refine ⟨key out s hout, ?_⟩
  simp only [RandomStringGeneratorBase.getContainer]
  simpa using key (List.replicate L default) s (by simp)

/-- Witness for C1: the always-zero generator on charset "ab", caller buffer
['x','y','z'] and requested length 3. -/
theorem generate_length_and_alphabet_witness :
    (RSG.abZeroGen.charset ≠ []
      ∧ (∀ s : Unit,
          (abZeroGen.rand abZeroGen.charset.length s).1 < abZeroGen.charset.length)
      ∧ (['x', 'y', 'z'] : List Char).length = 3)
    ∧ (((abZeroGen.get ['x', 'y', 'z'] 3 ()).1.length = 3
        ∧ ∀ j, j < 3 → (abZeroGen.get ['x', 'y', 'z'] 3 ()).1.getD j 'q' ∈ abZeroGen.charset)
      ∧ ((abZeroGen.getContainer 3 ()).1.length = 3
        ∧ ∀ j, j < 3 → (abZeroGen.getContainer 3 ()).1.getD j 'q' ∈ abZeroGen.charset)) :=
  ⟨⟨by decide, fun _ => Nat.succ_pos 1, by decide⟩,
    generate_length_and_alphabet abZeroGen (by decide) (fun _ => Nat.succ_pos 1) 3
      ['x', 'y', 'z'] (by decide) () 'q'⟩

/-- C5 counterexample: the cycling strategy 0,1,0,1,... is a fixed
deterministic strategy returning a fixed sequence of indices, yet two
consecutive generate calls with the same length 3 on charset "ab" return
different outputs ("aba" then "bab"), because the strategy's cursor keeps
advancing across calls. -/
theorem deterministic_repeat_cex :
    (abCyclingGen.getContainer 3 0).1 = ['a', 'b', 'a']
    ∧ (abCyclingGen.getContainer 3 (abCyclingGen.getContainer 3 0).2).1 = ['b', 'a', 'b']
    ∧ (abCyclingGen.getContainer 3 (abCyclingGen.getContainer 3 0).2).1
        ≠ (abCyclingGen.getContainer 3 0).1 := by
  decide

/-- C5 (amended): two generate calls with the same length yield identical
output whenever the deterministic strategy does not advance any internal
state across samples (so both calls run from the same strategy state); the
prior contents of the two caller buffers are irrelevant. -/
theorem deterministic_stateless_reproducible [Inhabited TChar]
    (g : RandomStringGeneratorBase TChar σ) (hdet : ∀ n s, (g.rand n s).2 = s)
    (L : Nat) (out1 out2 : List TChar) (h1 : out1.length = L) (h2 : out2.length = L)
    (s : σ) :
    (g.get out2 L (g.get out1 L s).2).1 = (g.get out1 L s).1 := by
  simp only [RandomStringGeneratorBase.get]
  rw [getLoop_snd_stateless g hdet]
  refine congrArg Prod.fst (getLoop_congr g L 0 out2 out1 s (h2.trans h1.symm) ?_)
  intro j hj
  rcases hj with h | h
  · omega
  · rw [List.getElem?_eq_none (by omega), List.getElem?_eq_none (by omega)]

/-- Witness for the amended C5: the always-zero generator, length 2, two
buffers with different prior contents. -/
theorem deterministic_stateless_reproducible_witness :
    ((∀ n : Nat, ∀ s : Unit, (abZeroGen.rand n s).2 = s)
      ∧ (['x', 'y'] : List Char).length = 2 ∧ (['u', 'v'] : List Char).length = 2)
    ∧ (abZeroGen.get ['u', 'v'] 2 (abZeroGen.get ['x', 'y'] 2 ()).2).1
        = (abZeroGen.get ['x', 'y'] 2 ()).1 :=
  ⟨⟨fun _ _ => rfl, by decide, by decide⟩,
    deterministic_stateless_reproducible abZeroGen (fun _ _ => rfl) 2
      ['x', 'y'] ['u', 'v'] (by decide) (by decide) ()⟩

/-- C6: with a random strategy that always returns index 0 (leaving its state
alone), both generation forms output the charset's first symbol repeated `L`
times, for every `L` and every non-empty charset. -/
theorem zero_strategy_repeats_first_symbol [Inhabited TChar]
    (g : RandomStringGeneratorBase TChar σ) (_hne : g.charset ≠ [])
    (hzero : ∀ n s, g.rand n s = (0, s)) (L : Nat) (out : List TChar)
    (hout : out.length = L) (s : σ) :
    (g.get out L s).1 = List.replicate L (g.charset.getD 0 default)
    ∧ (g.getContainer L s).1 = List.replicate L (g.charset.getD 0 default) := by
  have key : ∀ (buf : List TChar) (s0 : σ), buf.length = L →
      (g.get buf L s0).1 = List.replicate L (g.charset.getD 0 default) := by
    intro buf s0 hbuf
    apply List.ext_getElem?
    intro j
    rcases Nat.lt_or_ge j L with hj | hj
    · obtain ⟨s', hs'⟩ :=
        getLoop_getElem?_written g L 0 buf s0 j (Nat.zero_le j) (by omega) (by omega)
      simp only [RandomStringGeneratorBase.get]
      rw [hs', hzero]
      simp [hj]
    · have hlen : ((g.get buf L s0).1).length ≤ j := by
        simp only [RandomStringGeneratorBase.get]
        rw [getLoop_length]
        omega
      rw [List.getElem?_eq_none hlen, List.getElem?_eq_none (by simpa using hj)]
  refine ⟨key out s hout, ?_⟩
  simp only [RandomStringGeneratorBase.getContainer]
  simpa using key (List.replicate L default) s (by simp)

/-- Witness for C6: always-zero generator on charset "ab", buffer ['x','y'],
length 2; the output is the first symbol 'a' twice. -/
theorem zero_strategy_repeats_first_symbol_witness :
    (abZeroGen.charset ≠ []
      ∧ (∀ n : Nat, ∀ s : Unit, abZeroGen.rand n s = (0, s))
      ∧ (['x', 'y'] : List Char).length = 2)
    ∧ ((abZeroGen.get ['x', 'y'] 2 ()).1
        = List.replicate 2 (abZeroGen.charset.getD 0 default)
      ∧ (abZeroGen.getContainer 2 ()).1
        = List.replicate 2 (abZeroGen.charset.getD 0 default)) :=
  ⟨⟨by decide, fun _ _ => rfl, by decide⟩,
    zero_strategy_repeats_first_symbol abZeroGen (by decide) (fun _ _ => rfl) 2
      ['x', 'y'] (by decide) ()⟩

/-- C7: the container form allocates a default-initialized container of size
`L`, delegates the filling to the buffer form, and returns it; its result
(output together with the final strategy state) equals a buffer-form run on
any length-`L` caller buffer from the same strategy state, and the returned
container has length `L`. -/
theorem container_form_delegates [Inhabited TChar]
    (g : RandomStringGeneratorBase TChar σ) (L : Nat) (s : σ) (buf : List TChar)
    (hbuf : buf.length = L) :
    g.getContainer L s = g.get buf L s ∧ (g.getContainer L s).1.length = L := by
  have hmain : g.getContainer L s = g.get buf L s := by
    simp only [RandomStringGeneratorBase.getContainer, RandomStringGeneratorBase.get]
    rw [List.length_replicate]
    refine getLoop_congr g L 0 _ buf s (by simp [hbuf]) ?_
    intro j hj
    rcases hj with h | h
    · omega
    · rw [List.getElem?_eq_none (by simp only [List.length_replicate]; omega),
        List.getElem?_eq_none (by omega)]
  refine ⟨hmain, ?_⟩
  rw [hmain]
  simp only [RandomStringGeneratorBase.get]
  rw [getLoop_length]
  exact hbuf

/-- Witness for C7: always-zero generator, length 2, caller buffer
['x','y']. -/
theorem container_form_delegates_witness :
    (['x', 'y'] : List Char).length = 2
    ∧ (abZeroGen.getContainer 2 () = abZeroGen.get ['x', 'y'] 2 ()
      ∧ (abZeroGen.getContainer 2 ()).1.length = 2) :=
  ⟨by decide, container_form_delegates abZeroGen 2 () ['x', 'y'] (by decide)⟩

/-- C8: during any generation call, the random strategy is invoked only with
the bound `charset.length`, which is strictly positive for a non-empty
charset: every bound logged by an instrumented strategy during `get` equals
`charset.length`, and is positive. -/
theorem rand_called_only_with_charset_length [Inhabited TChar]
    (charset : List TChar) (hne : charset ≠ []) (f : Nat → σ → Nat × σ)
    (out : List TChar) (L : Nat) (s : σ) :
    ∀ a ∈ (((mkFromString charset (instrumentRand f)).get out L (s, [])).2).2,
      a = charset.length ∧ 0 < a := by
  intro a ha
  simp only [RandomStringGeneratorBase.get] at ha
  rw [getLoop_instrument_log charset f L 0 out s []] at ha
  simp only [List.nil_append] at ha
  have haa := List.eq_of_mem_replicate ha
  subst haa
  exact ⟨rfl, List.length_pos.mpr hne⟩

/-- Witness for C8: charset "ab" instrumented over the always-zero strategy,
buffer ['x'], length 1. -/
theorem rand_called_only_with_charset_length_witness :
    (['a', 'b'] : List Char) ≠ []
    ∧ ∀ a ∈ (((mkFromString ['a', 'b']
          (instrumentRand (fun _ (s : Unit) => (0, s)))).get ['x'] 1 ((), [])).2).2,
        a = (['a', 'b'] : List Char).length ∧ 0 < a :=
  ⟨by decide,
    rand_called_only_with_charset_length ['a', 'b'] (by decide)
      (fun _ (s : Unit) => (0, s)) ['x'] 1 ()⟩

/-- C9: the Generator with charset "ab" and the cycling 0,1,0,1,... strategy
produces exactly "abab" when asked for output of length 4. -/
theorem example_abab : (abCyclingGen.getContainer 4 0).1 = ['a', 'b', 'a', 'b'] := by
  decide

/-- Once the once-flag has fired, further constructions with auto-seeding
enabled never invoke the seed strategy again. -/
theorem constructN_after_fired (c : Nat) :
    ∀ n : Nat, constructN false n ⟨true, c⟩ = ⟨true, c⟩ := by
  intro n
  induction n with
  | zero => rfl
  | succ n ih => simpa [constructN, constructorSeedEffect] using ih

/-- With auto-seeding disabled by the configuration switch, constructions
never touch the seeding state at all. -/
theorem constructN_speedup (st : OnceState) :
    ∀ n : Nat, constructN true n st = st := by
  intro n
  induction n generalizing st with
  | zero => rfl
  | succ n ih => simpa [constructN, constructorSeedEffect] using ih st

/-- C2: starting from a fresh process (once-flag unfired, counting seed
strategy at 0), across any `n ≥ 1` Generator constructions the seed strategy
is invoked exactly once — by the first construction, which fires the flag —
when auto-seeding is enabled (the default, macro unset); with auto-seeding
disabled via the configuration macro it is invoked zero times. -/
theorem auto_seed_exactly_once (n : Nat) (hn : 1 ≤ n) :
    constructN false n ⟨false, 0⟩ = ⟨true, 1⟩
    ∧ (constructN false n ⟨false, 0⟩).seedCalls = 1
    ∧ (constructN true n ⟨false, 0⟩).seedCalls = 0 := by
  obtain ⟨m, rfl⟩ : ∃ m, n = m + 1 := ⟨n - 1, by omega⟩
  have h1 : constructN false (m + 1) ⟨false, 0⟩ = ⟨true, 1⟩ := by
    simpa [constructN, constructorSeedEffect] using constructN_after_fired 1 m
  exact ⟨h1, by rw [h1], by rw [constructN_speedup]⟩

/-- Witness for C2 at `n = 3` constructions. -/
theorem auto_seed_exactly_once_witness :
    1 ≤ 3 ∧ (constructN false 3 ⟨false, 0⟩ = ⟨true, 1⟩
      ∧ (constructN false 3 ⟨false, 0⟩).seedCalls = 1
      ∧ (constructN true 3 ⟨false, 0⟩).seedCalls = 0) :=
  ⟨by decide, auto_seed_exactly_once 3 (by decide)⟩

/-- Reading null-terminated charset data whose data part does not contain the
sentinel recovers exactly the data part. -/
theorem takeWhile_append_sentinel [DecidableEq TChar] (nul : TChar) :
    ∀ s : List TChar, nul ∉ s →
      (s ++ [nul]).takeWhile (fun c => decide (c ≠ nul)) = s := by
  intro s
  induction s with
  | nil => intro _; simp
  | cons a as ih =>
    intro h
    have ha : a ≠ nul := by
      intro hh
      exact h (by simp [hh])
    have ih' : List.takeWhile (fun c => decide (c ≠ nul)) (as ++ [nul]) = as :=
      ih (fun hm => h (List.mem_cons_of_mem a hm))
    simpa [List.takeWhile_cons, ha] using ih'

/-- C3: built from the same logical symbol set `s` (which does not contain
the null sentinel), the null-terminated-pointer constructor and the container
constructor produce generators with identical charsets (same symbols, same
count), while the fixed-size-array constructor additionally keeps the
trailing sentinel element as part of its charset. -/
theorem construction_overloads_equivalent [DecidableEq TChar] (s : List TChar)
    (nul : TChar) (rand : Nat → σ → Nat × σ) (h : nul ∉ s) :
    (mkFromPtr (s ++ [nul]) nul rand).charset = (mkFromContainer s rand).charset
    ∧ (mkFromPtr (s ++ [nul]) nul rand).charset.length
        = (mkFromContainer s rand).charset.length
    ∧ (mkFromArray (s ++ [nul]) rand).charset
        = (mkFromContainer s rand).charset ++ [nul] := by
  have hp : (mkFromPtr (s ++ [nul]) nul rand).charset = s :=
    takeWhile_append_sentinel nul s h
  exact ⟨hp, by rw [hp]; rfl, rfl⟩

/-- Witness for C3: symbol set "ab", null sentinel, a dummy strategy. -/
theorem construction_overloads_equivalent_witness :
    Char.ofNat 0 ∉ (['a', 'b'] : List Char)
    ∧ ((mkFromPtr (['a', 'b'] ++ [Char.ofNat 0]) (Char.ofNat 0)
          (fun _ (s : Unit) => (0, s))).charset
        = (mkFromContainer ['a', 'b'] (fun _ (s : Unit) => (0, s))).charset
      ∧ (mkFromPtr (['a', 'b'] ++ [Char.ofNat 0]) (Char.ofNat 0)
          (fun _ (s : Unit) => (0, s))).charset.length
        = (mkFromContainer ['a', 'b'] (fun _ (s : Unit) => (0, s))).charset.length
      ∧ (mkFromArray (['a', 'b'] ++ [Char.ofNat 0])
          (fun _ (s : Unit) => (0, s))).charset
        = (mkFromContainer ['a', 'b'] (fun _ (s : Unit) => (0, s))).charset
            ++ [Char.ofNat 0]) :=
  ⟨by decide,
    construction_overloads_equivalent ['a', 'b'] (Char.ofNat 0)
      (fun _ (s : Unit) => (0, s)) (by decide)⟩

/-- C4: the fixed-size-array constructor yields a charset of exactly the
declared array length, equal element-for-element to the array contents; in
particular, for a character-array literal (visible characters `s` plus the
implicit terminator `z`) the terminator is included as a real charset symbol
and the charset is one symbol wider than the literal's visible characters. -/
theorem array_constructor_keeps_sentinel (arr : List TChar)
    (rand : Nat → σ → Nat × σ) (s : List TChar) (z : TChar)
    (rand2 : Nat → σ → Nat × σ) :
    ((mkFromArray arr rand).charset = arr
      ∧ (mkFromArray arr rand).charset.length = arr.length)
    ∧ ((mkFromArray (s ++ [z]) rand2).charset.length = s.length + 1
      ∧ z ∈ (mkFromArray (s ++ [z]) rand2).charset) := by
  refine ⟨⟨rfl, rfl⟩, ?_, ?_⟩
  · simp [mkFromArray, mkFromString]
  · simp [mkFromArray, mkFromString]

/-- Literal form of the `int`-to-`size_t` conversion. -/
theorem intToSizeT_eq (i : Int) : intToSizeT i = (i % 18446744073709551616).toNat := by
  unfold intToSizeT
  norm_num

/-- Literal form of the wrapping counter increment. -/
theorem intWrapSucc_eq (i : Int) :
    intWrapSucc i = if i + 1 < 2147483648 then i + 1 else -2147483648 := by
  unfold intWrapSucc
  norm_num

/-- Literal form of the wrapped counter value after `j` increments. -/
theorem intOfNatWrap_eq (j : Nat) :
    intOfNatWrap j = if j < 2147483648 then (j : Int) else -2147483648 := by
  unfold intOfNatWrap
  norm_num

/-- When the converted counter already fails the bound, the loop exits at
once. -/
theorem getIntLoop_exit (outSize fuel count : Nat) (ws : List Int) (i : Int)
    (h : ¬ intToSizeT i < outSize) (hf : 1 ≤ fuel) :
    getIntLoop outSize fuel i count ws = (count, ws) := by
  obtain ⟨f, rfl⟩ : ∃ f, fuel = f + 1 := ⟨fuel - 1, by omega⟩
  simp only [getIntLoop]
  rw [if_neg h]

/-- In-range regime of the wrapped-counter loop: for a requested size of at
most `2 ^ 31 = 2147483648`, starting at counter value `j` with
`n = outSize - j` positions left, the loop performs exactly `n` more
iterations, writing indices `j, j+1, ..., outSize-1` in order, then stops. -/
theorem getIntLoop_below (outSize : Nat) (hsize : outSize ≤ 2147483648) :
    ∀ (n j fuel count : Nat) (ws : List Int), j + n = outSize → n + 1 ≤ fuel →
      getIntLoop outSize fuel (j : Int) count ws
        = (count + n, ws ++ (List.range' j n).map (fun k => (k : Int))) := by
  intro n
  induction n with
  | zero =>
    intro j fuel count ws hj hfuel
    rw [getIntLoop_exit outSize fuel count ws (j : Int)
      (by rw [intToSizeT_eq]; omega) (by omega)]
    simp
  | succ n ih =>
    intro j fuel count ws hj hfuel
    obtain ⟨f, rfl⟩ : ∃ f, fuel = f + 1 := ⟨fuel - 1, by omega⟩
    simp only [getIntLoop]
    rw [if_pos (by rw [intToSizeT_eq]; omega)]
    rcases Nat.lt_or_ge (j + 1) 2147483648 with hlt | hge
    · have hws : intWrapSucc (j : Int) = ((j + 1 : Nat) : Int) := by
        rw [intWrapSucc_eq, if_pos (by omega)]
        push_cast
        ring
      rw [hws, ih (j + 1) f (count + 1) (ws ++ [(j : Int)]) (by omega) (by omega)]
      refine congrArg₂ Prod.mk (by omega) ?_
      rw [List.range'_succ]
      simp [List.append_assoc]
    · obtain rfl : n = 0 := by omega
      have hws : intWrapSucc (j : Int) = -2147483648 := by
        rw [intWrapSucc_eq, if_neg (by omega)]
      rw [hws, getIntLoop_exit outSize f (count + 1) (ws ++ [(j : Int)]) (-2147483648)
        (by rw [intToSizeT_eq]; omega) (by omega)]
      refine congrArg₂ Prod.mk (by omega) ?_
      rw [List.range'_succ]
      simp

/-- Crossing the wrap: for a requested size above `2 ^ 31`, the first
`2 ^ 31` iterations always pass the bound check, after which the counter has
wrapped to `INT_MIN`. -/
theorem getIntLoop_cross (outSize : Nat) (hsize : 2147483648 < outSize) :
    ∀ (n j fuel count : Nat) (ws : List Int), j + n = 2147483648 →
      getIntLoop outSize (fuel + n) (intOfNatWrap j) count ws
        = getIntLoop outSize fuel (-2147483648) (count + n)
            (ws ++ (List.range' j n).map (fun k => (k : Int))) := by
  intro n
  induction n with
  | zero =>
    intro j fuel count ws hj
    rw [intOfNatWrap_eq, if_neg (by omega)]
    simp
  | succ n ih =>
    intro j fuel count ws hj
    rw [show fuel + (n + 1) = (fuel + n) + 1 from by omega]
    simp only [getIntLoop]
    rw [intOfNatWrap_eq, if_pos (by omega : j < 2147483648)]
    rw [if_pos (by rw [intToSizeT_eq]; omega)]
    have hsucc : intWrapSucc ((j : Nat) : Int) = intOfNatWrap (j + 1) := by
      rw [intWrapSucc_eq, intOfNatWrap_eq]
      rcases Nat.lt_or_ge (j + 1) 2147483648 with h | h
      · rw [if_pos (by omega), if_pos h]
        push_cast
        ring
      · rw [if_neg (by omega), if_neg (by omega)]
    rw [hsucc, ih (j + 1) fuel (count + 1) (ws ++ [(j : Int)]) (by omega)]
    have hc : count + 1 + n = count + (n + 1) := by omega
    have hl : (ws ++ [(j : Int)]) ++ (List.range' (j + 1) n).map (fun k => (k : Int))
        = ws ++ (List.range' j (n + 1)).map (fun k => (k : Int)) := by
      rw [List.range'_succ]
      simp [List.append_assoc]
    rw [hc, hl]

/-- Negative regime of the wrapped-counter loop: for a requested size within
`(2 ^ 64 - 2 ^ 31, 2 ^ 64)`, a negative counter value `outSize - 2^64 - n`
still passes the bound check for `n` further iterations before the loop
stops. -/
theorem getIntLoop_neg (outSize : Nat) (hout : outSize < 18446744073709551616) :
    ∀ (n fuel count : Nat) (ws : List Int),
      -2147483648 ≤ (outSize : Int) - 18446744073709551616 - (n : Int) →
      n + 1 ≤ fuel →
      (getIntLoop outSize fuel
        ((outSize : Int) - 18446744073709551616 - (n : Int)) count ws).1 = count + n := by
  intro n
  induction n with
  | zero =>
    intro fuel count ws hge hfuel
    rw [getIntLoop_exit outSize fuel count ws _ (by rw [intToSizeT_eq]; omega) (by omega)]
    simp
  | succ n ih =>
    intro fuel count ws hge hfuel
    obtain ⟨f, rfl⟩ : ∃ f, fuel = f + 1 := ⟨fuel - 1, by omega⟩
    simp only [getIntLoop]
    rw [if_pos (by rw [intToSizeT_eq]; omega)]
    have hws : intWrapSucc ((outSize : Int) - 18446744073709551616 - ((n + 1 : Nat) : Int))
        = (outSize : Int) - 18446744073709551616 - (n : Int) := by
      rw [intWrapSucc_eq, if_pos (by omega)]
      push_cast
      ring
    rw [hws, ih f (count + 1) _ (by omega) (by omega)]
    omega

/-- Full-run form of the in-range regime: for a requested size of at most
`2 ^ 31`, the wrapped-counter loop performs exactly `outSize` iterations and
writes the indices `0, 1, ..., outSize - 1` in order. -/
theorem getIntRun_below (outSize : Nat) (h : outSize ≤ 2147483648) :
    getIntRun outSize = (outSize, (List.range' 0 outSize).map (fun k => (k : Int))) := by
  unfold getIntRun
  have hrun := getIntLoop_below outSize h outSize 0 (2 ^ 32) 0 [] (by omega)
    (by norm_num; omega)
  simpa using hrun

/-- C10 (amended): in the wraparound model of the `int` loop counter (with a
64-bit `size_t`), the exact-length guarantee of the buffer-filling loop holds
for every `outSize` up to and including `2 ^ 31` — the loop performs exactly
`outSize` iterations and writes `out[0]` through `out[outSize-1]` once each,
in order — while for every `outSize` with `2 ^ 31 < outSize < 2 ^ 64` the
wrapped counter makes the number of iterations differ from `outSize`.  (The
claim's stated boundary `2 ^ 31 - 1` is off by one: see the counterexample at
`outSize = 2 ^ 31`.) -/
theorem int_counter_exact_length_boundary (outSize : Nat) :
    (outSize ≤ 2 ^ 31 →
      getIntRun outSize = (outSize, (List.range outSize).map (fun k => (k : Int))))
    ∧ (2 ^ 31 < outSize → outSize < 2 ^ 64 → getIntIterations outSize ≠ outSize) := by
  constructor
  · intro h
    have h' : outSize ≤ 2147483648 := by norm_num at h; exact h
    rw [List.range_eq_range']
    exact getIntRun_below outSize h'
  · intro h1 h2
    have h1' : 2147483648 < outSize := by norm_num at h1; exact h1
    have h2' : outSize < 18446744073709551616 := by norm_num at h2; exact h2
    unfold getIntIterations getIntRun
    have h0 : (0 : Int) = intOfNatWrap 0 := by rw [intOfNatWrap_eq]; norm_num
    have hfuel : (2 : Nat) ^ 32 = 2147483648 + 2147483648 := by norm_num
    rw [hfuel, h0,
      getIntLoop_cross outSize h1' 2147483648 0 2147483648 0 [] (by omega)]
    rcases le_or_lt outSize 18446744071562067968 with hc | hc
    · have hex : ∀ ws : List Int,
          getIntLoop outSize 2147483648 (-2147483648) (0 + 2147483648) ws
            = (0 + 2147483648, ws) := fun ws =>
        getIntLoop_exit outSize 2147483648 (0 + 2147483648) ws (-2147483648)
          (by rw [intToSizeT_eq]; omega) (by norm_num)
      rw [hex]
      simp only []
      omega
    · have hi : (-2147483648 : Int) = (outSize : Int) - 18446744073709551616
          - ((outSize - 18446744071562067968 : Nat) : Int) := by omega
      rw [hi]
      have hneg : ∀ ws : List Int,
          (getIntLoop outSize 2147483648
            ((outSize : Int) - 18446744073709551616
              - ((outSize - 18446744071562067968 : Nat) : Int))
            (0 + 2147483648) ws).1
            = 0 + 2147483648 + (outSize - 18446744071562067968) := fun ws =>
        getIntLoop_neg outSize h2' (outSize - 18446744071562067968) 2147483648
          (0 + 2147483648) ws (by omega) (by omega)
      rw [hneg]
      omega

/-- Witness for the amended C10: the in-range part at `outSize = 3`, the
overflow part at `outSize = 2 ^ 31 + 7`. -/
theorem int_counter_exact_length_boundary_witness :
    ((3 : Nat) ≤ 2 ^ 31 ∧ getIntRun 3 = (3, [0, 1, 2]))
    ∧ (2 ^ 31 < (2 ^ 31 + 7 : Nat) ∧ (2 ^ 31 + 7 : Nat) < 2 ^ 64
      ∧ getIntIterations (2 ^ 31 + 7) ≠ 2 ^ 31 + 7) :=
  ⟨⟨by norm_num,
      by rw [(int_counter_exact_length_boundary 3).1 (by norm_num)]; decide⟩,
    by norm_num, by norm_num,
    (int_counter_exact_length_boundary (2 ^ 31 + 7)).2 (by norm_num) (by norm_num)⟩

/-- Iteration-count form of the in-range regime, stated for a symbolic size:
for a requested size of at most `2 ^ 31` the wrapped-counter loop performs
exactly `outSize` iterations. -/
theorem getIntIterations_below (outSize : Nat) (h : outSize ≤ 2147483648) :
    getIntIterations outSize = outSize := by
  unfold getIntIterations
  rw [getIntRun_below outSize h]

/-- C10 counterexample: at `outSize = 2 ^ 31` — which is greater than
`2 ^ 31 - 1` — the wrapped `int` counter still produces exactly `outSize`
iterations (the counter wraps only after the last needed iteration, and the
converted `INT_MIN` fails the bound), so the claim's boundary `2 ^ 31 - 1` is
too small. -/
theorem int_counter_boundary_cex :
    2 ^ 31 - 1 < (2 ^ 31 : Nat) ∧ getIntIterations (2 ^ 31) = 2 ^ 31 :=
  ⟨by norm_num, getIntIterations_below (2 ^ 31) (by norm_num)⟩

end RSG
